import Mathlib

/-!
Verification development for the tfw platform reactive UI core.

The embedding covers the parts of the source that the checked properties
concern: the rectangle helpers from `core/math` (modelled from the spec, as
that file is not part of the source tree under verification), the `Element`
invalidation and dirty-region machinery from `ui/element` (found in
`src/ui/style.ts` after the document separator), and the local reactive
collections from `core/rcollect.ts`.

Machine integers do not arise: the source stores coordinates in float arrays
but only ever adds, compares and min/maxes screen coordinates, which we model
with `Int`.
-/

namespace Spec2Proof

/-! ## Rectangles

Modelled from the spec: the `rect` namespace of `core/math` is imported by
`ui/element` but the file is not in the source tree. Per the spec, a dirty
region is an "accumulated rectangle of screen area needing repaint"; the
accumulated region is the "bounding union" of the dirtied rectangles
"starting from the empty rectangle", so `union` is the bounding-box union
with the empty rectangle as identity; the propagation-stop test is rectangle
containment, and `render` tests intersection of bounds with the region. -/

structure Rect where
  x : Int
  y : Int
  w : Int
  h : Int
  deriving Repr, DecidableEq

namespace Rect

/-- The zero rectangle, the value of `rect.create()`: all four components 0. -/
def zero : Rect := ⟨0, 0, 0, 0⟩

/-- Modelled from the spec: a rectangle is empty when it has no area. -/
def isEmpty (r : Rect) : Prop := r.w ≤ 0 ∨ r.h ≤ 0

instance (r : Rect) : Decidable (r.isEmpty) := by
  unfold isEmpty
  exact inferInstance

/-- A proper rectangle has positive width and height. -/
def proper (r : Rect) : Prop := 0 < r.w ∧ 0 < r.h

instance (r : Rect) : Decidable (r.proper) := by
  unfold proper
  exact inferInstance

/-- Modelled from the spec: bounding union of two rectangles, with the empty
rectangle acting as the identity (the accumulated dirty region starts from the
empty rectangle and equals the bounding union of all dirtied rectangles). -/
def union (a b : Rect) : Rect :=
  if a.isEmpty then b
  else if b.isEmpty then a
  else
    let x := min a.x b.x
    let y := min a.y b.y
    let xmax := max (a.x + a.w) (b.x + b.w)
    let ymax := max (a.y + a.h) (b.y + b.h)
    ⟨x, y, xmax - x, ymax - y⟩

/-- Modelled from the spec: `containsRect a b` holds when `b` is fully
contained in `a`. -/
def containsRect (a b : Rect) : Prop :=
  a.x ≤ b.x ∧ a.y ≤ b.y ∧ b.x + b.w ≤ a.x + a.w ∧ b.y + b.h ≤ a.y + a.h

instance (a b : Rect) : Decidable (containsRect a b) := by
  unfold containsRect
  exact inferInstance

/-- Modelled from the spec: two rectangles intersect when they share interior
area. -/
def intersects (a b : Rect) : Prop :=
  b.x < a.x + a.w ∧ a.x < b.x + b.w ∧ b.y < a.y + a.h ∧ a.y < b.y + b.h

instance (a b : Rect) : Decidable (intersects a b) := by
  unfold intersects
  exact inferInstance
end Rect

/-! ## Element validation and dirty-region state

Embeds the mutable state of `Element` in `ui/element` (`src/ui/style.ts`,
second document): `_bounds`, `_psize` (with `_psize[0] < 0` as the
invalid sentinel), `_valid` (a local mutable boolean), `_dirtyRegion`, and
the current value of `visible`. An element and its ancestor chain are
represented as a list of states with the element itself at the head; the
recursive walk to `this.parent` becomes recursion on the tail. -/

structure ElemState where
  bounds : Rect
  psizeW : Int
  psizeH : Int
  valid : Bool
  dirtyRegion : Rect
  visible : Bool
  deriving Repr, DecidableEq

namespace Element

/-- Embeds `Element.expandBounds`, which in the base class returns the bounds
unchanged. -/
def expandBounds (b : Rect) : Rect := b

/-- Embeds `Element.dirty(region, fromChild)` over the element-and-ancestors
chain: if the accumulated dirty rectangle already contains `region`, return
with nothing changed; otherwise accumulate the union and propagate the same
`region` to the parent. The `fromChild` flag is ignored by the base method. -/
def dirty : List ElemState → Rect → List ElemState
  | [], _ => []
  | e :: ps, region =>
    if Rect.containsRect e.dirtyRegion region then e :: ps
    else { e with dirtyRegion := Rect.union e.dirtyRegion region } :: dirty ps region

/-- Embeds `Element.invalidate(dirty)`: if currently valid, mark invalid, set
the preferred-size sentinel and call `parent.invalidate(false)`; then if the
`dirty` flag is set call `this.dirty()` with the default region
`expandBounds(bounds)`. The boolean result records whether the valid branch
ran, i.e. whether the parent was sent an `invalidate` call. -/
def invalidate : List ElemState → Bool → List ElemState × Bool
  | [], _ => ([], false)
  | e :: ps, dirtyFlag =>
    if e.valid then
      let e1 := { e with valid := false, psizeW := -1 }
      let ps1 := (invalidate ps false).1
      ((if dirtyFlag then dirty (e1 :: ps1) (expandBounds e1.bounds)
        else e1 :: ps1), true)
    else
      ((if dirtyFlag then dirty (e :: ps) (expandBounds e.bounds)
        else e :: ps), false)

/-- Embeds `Element.preferredSize(hintX, hintY)`: when the cached value is the
invalid sentinel (`psize[0] < 0`), `computePreferredSize` writes a fresh value
into the cache. The abstract `computePreferredSize` is a parameter; the
boolean result records whether it was invoked. -/
def preferredSize (compute : Int → Int → Int × Int) (e : ElemState)
    (hintX hintY : Int) : (Int × Int) × ElemState × Bool :=
  if e.psizeW < 0 then
    let p := compute hintX hintY
    ((p.1, p.2), { e with psizeW := p.1, psizeH := p.2 }, true)
  else ((e.psizeW, e.psizeH), e, false)

/-- Embeds `Element.setBounds(bounds)`: on an unchanged rectangle return
immediately; otherwise merge the old and new bounds, replace the bounds,
dirty the expanded merged region and call `invalidate()`. -/
def setBounds : List ElemState → Rect → List ElemState
  | [], _ => []
  | e :: ps, b =>
    if e.bounds = b then e :: ps
    else
      let merged := Rect.union e.bounds b
      (invalidate (dirty ({ e with bounds := b } :: ps) (expandBounds merged)) true).1

/-- Embeds `Element.render(canvas, region)` for a single element: return with
nothing changed when the expanded bounds do not intersect `region`; otherwise
`rerender` runs exactly when the element is visible (the boolean result) and
the accumulated dirty rectangle is zeroed. -/
def render (e : ElemState) (region : Rect) : ElemState × Bool :=
  if ¬ Rect.intersects (expandBounds e.bounds) region then (e, false)
  else ({ e with dirtyRegion := Rect.zero }, e.visible)

/-- The accumulated dirty rectangle of the element at the head of a chain. -/
def accOf : List ElemState → Rect
  | [] => Rect.zero
  | e :: _ => e.dirtyRegion

/-- Layout-relevant fields of an element, untouched by `dirty`. -/
def layoutFields (e : ElemState) : Rect × Int × Int × Bool × Bool :=
  (e.bounds, e.psizeW, e.psizeH, e.valid, e.visible)
end Element

/-! ## Reactive collections

Embeds the local collection classes of `core/rcollect.ts`. Each mutation
returns the new backing store together with the list of structured change
events dispatched synchronously by the call (`dispatchValue` hands each event
to every registered `onChange` listener, so one entry here is one event
delivered to every listener). JS `Set`/`Map` backing stores are modelled as
insertion-ordered lists; element and key identity (`===`, SameValueZero) is
modelled by decidable equality. -/

/-- Embeds `ListChange`. -/
inductive ListChange (E : Type) where
  | added (index : Nat) (elem : E)
  | updated (index : Nat) (elem : E) (prev : E)
  | deleted (index : Nat) (prev : E)
  deriving Repr, DecidableEq

/-- Embeds the backing store of `LocalMutableList`. -/
structure LocalMutableList (E : Type) where
  elems : List E
  deriving Repr, DecidableEq

namespace LocalMutableList

/-- Embeds `LocalMutableList.insert`: `splice(index, 0, elem)` (which clamps
the start position to the array length) followed by `notifyInsert(index,
elem)`. -/
def insert {E : Type} (s : LocalMutableList E) (elem : E) (index : Nat) :
    LocalMutableList E × List (ListChange E) :=
  (⟨s.elems.take (min index s.elems.length)
      ++ elem :: s.elems.drop (min index s.elems.length)⟩,
   [.added index elem])

/-- Embeds `LocalMutableList.update`: read `prev = elems[index]`; if
`eq(elem, prev)` fails, store `elem` at `index` and notify with the new and
previous elements. An out-of-bounds index reads `undefined` in the source,
which has no counterpart here and is left unmodelled (the claims only concern
in-bounds indices). -/
def update {E : Type} (eq : E → E → Bool) (s : LocalMutableList E) (index : Nat)
    (elem : E) : LocalMutableList E × List (ListChange E) :=
  match s.elems[index]? with
  | some prev =>
      if eq elem prev then (s, [])
      else (⟨s.elems.set index elem⟩, [.updated index elem prev])
  | none => (s, [])

/-- Embeds `LocalMutableList.delete`: `splice(index, 1)` followed by
`notifyDelete(index, prev)`. An out-of-bounds index notifies with `undefined`
in the source, which is left unmodelled (the claims only concern in-bounds
indices). -/
def delete {E : Type} (s : LocalMutableList E) (index : Nat) :
    LocalMutableList E × List (ListChange E) :=
  match s.elems[index]? with
  | some prev => (⟨s.elems.eraseIdx index⟩, [.deleted index prev])
  | none => (s, [])

/-- Embeds `MutableList.clear`: `while (this.length > 0)
this.delete(this.length - 1)`. -/
def clear {E : Type} (s : LocalMutableList E) :
    LocalMutableList E × List (ListChange E) :=
  if _h : 0 < s.elems.length then
    ((clear (delete s (s.elems.length - 1)).1).1,
     (delete s (s.elems.length - 1)).2 ++ (clear (delete s (s.elems.length - 1)).1).2)
  else (s, [])
termination_by s.elems.length
decreasing_by
  all_goals
    have hlt : s.elems.length - 1 < s.elems.length := by omega
    have hg := List.getElem?_eq_getElem hlt
    simp only [delete, hg, List.length_eraseIdx, if_pos hlt]
    omega

end LocalMutableList

/-- Embeds `SetChange`. -/
inductive SetChange (E : Type) where
  | added (elem : E)
  | deleted (elem : E)
  deriving Repr, DecidableEq

/-- Embeds the backing store of `LocalMutableSet`. -/
structure LocalMutableSet (E : Type) where
  elems : List E
  deriving Repr, DecidableEq

namespace LocalMutableSet

/-- Embeds `LocalMutableSet.add`: `data.add(elem)` grows the JS set exactly
when `elem` was not yet a member, and `notifyAdd` fires exactly when the size
changed. -/
def add {E : Type} [DecidableEq E] (s : LocalMutableSet E) (elem : E) :
    LocalMutableSet E × List (SetChange E) :=
  if elem ∈ s.elems then (s, [])
  else (⟨s.elems ++ [elem]⟩, [.added elem])

/-- Embeds `LocalMutableSet.delete`: `data.delete(elem)` reports whether the
entry existed; `notifyDelete` fires exactly on an actual removal, and the
report is returned. -/
def delete {E : Type} [DecidableEq E] (s : LocalMutableSet E) (elem : E) :
    LocalMutableSet E × List (SetChange E) × Bool :=
  if elem ∈ s.elems then (⟨s.elems.erase elem⟩, [.deleted elem], true)
  else (s, [], false)

/-- Embeds the loop of `MutableSet.clear`: `for (const elem of this)
this.delete(elem)`; the iterator visits the insertion-order entries, and
deleting the entry being visited does not disturb the rest of the
iteration. -/
def clearLoop {E : Type} [DecidableEq E] :
    LocalMutableSet E → List E → LocalMutableSet E × List (SetChange E)
  | cur, [] => (cur, [])
  | cur, e :: rest =>
    ((clearLoop (delete cur e).1 rest).1,
     (delete cur e).2.1 ++ (clearLoop (delete cur e).1 rest).2)

/-- Embeds `MutableSet.clear`. -/
def clear {E : Type} [DecidableEq E] (s : LocalMutableSet E) :
    LocalMutableSet E × List (SetChange E) :=
  clearLoop s s.elems

end LocalMutableSet

/-- Embeds `MapChange`. -/
inductive MapChange (K V : Type) where
  | set (key : K) (value : V) (prev : Option V)
  | deleted (key : K) (prev : V)
  deriving Repr, DecidableEq

/-- The key carried by a map change event. -/
def MapChange.key {K V : Type} : MapChange K V → K
  | .set k _ _ => k
  | .deleted k _ => k

/-- Embeds the backing store of `LocalMutableMap` as an insertion-ordered
association list (a JS `Map` keeps first-insertion order and updates values
in place). -/
structure LocalMutableMap (K V : Type) where
  entries : List (K × V)
  deriving Repr, DecidableEq

namespace LocalMutableMap

/-- Embeds `Map.get`. -/
def get {K V : Type} [DecidableEq K] (s : LocalMutableMap K V) (k : K) : Option V :=
  (s.entries.find? (fun p => p.1 == k)).map Prod.snd

/-- Embeds `LocalMutableMap.set`: read `prev = data.get(key)`, store the
mapping (updating the existing entry in place, else appending), and notify
with the new value and `prev` unconditionally. -/
def set {K V : Type} [DecidableEq K] (s : LocalMutableMap K V) (k : K) (v : V) :
    LocalMutableMap K V × List (MapChange K V) :=
  (⟨match s.get k with
    | some _ => s.entries.map (fun p => if p.1 == k then (k, v) else p)
    | none => s.entries ++ [(k, v)]⟩,
   [.set k v (s.get k)])

/-- Embeds `LocalMutableMap.delete`: `data.delete(key)` reports whether a
mapping existed; `notifyDelete` fires exactly on an actual removal. -/
def delete {K V : Type} [DecidableEq K] (s : LocalMutableMap K V) (k : K) :
    LocalMutableMap K V × List (MapChange K V) × Bool :=
  match s.get k with
  | some prev => (⟨s.entries.eraseP (fun p => p.1 == k)⟩, [.deleted k prev], true)
  | none => (s, [], false)

/-- Embeds the loop of `MutableMap.clear`: `for (const key of this.keys())
this.delete(key)`. -/
def clearLoop {K V : Type} [DecidableEq K] :
    LocalMutableMap K V → List K → LocalMutableMap K V × List (MapChange K V)
  | cur, [] => (cur, [])
  | cur, k :: rest =>
    ((clearLoop (delete cur k).1 rest).1,
     (delete cur k).2.1 ++ (clearLoop (delete cur k).1 rest).2)

/-- Embeds `MutableMap.clear`. -/
def clear {K V : Type} [DecidableEq K] (s : LocalMutableMap K V) :
    LocalMutableMap K V × List (MapChange K V) :=
  clearLoop s (s.entries.map Prod.fst)

end LocalMutableMap

namespace RMap

/-- Embeds the `onChange` callback installed by `RMap.projectValue(key, fn,
eq)`: for a change on the observed key, project the previous and new values
and return the dispatched `(new, old)` pair unless they are equal per `eq`;
any other change dispatches nothing. -/
def projectValueHandler {K V W : Type} [DecidableEq K] (key : K) (fn : V → W)
    (eq : Option W → Option W → Bool) : MapChange K V → Option (Option W × Option W)
  | .set k v prev =>
    if k = key then
      if eq (prev.map fn) (some (fn v)) then none
      else some (some (fn v), prev.map fn)
    else none
  | .deleted k prev =>
    if k = key then
      if eq (some (fn prev)) none then none
      else some (none, some (fn prev))
    else none

/-- Embeds `RMap.getValue(key, eq)`, which is `projectValue(key, v => v,
eq)`. -/
def getValueHandler {K V : Type} [DecidableEq K] (key : K)
    (eq : Option V → Option V → Bool) (c : MapChange K V) :
    Option (Option V × Option V) :=
  projectValueHandler key (fun v => v) eq c

/-- Modelled from the spec: `Value.deriveValue` (from `core/react.ts`, which
is not in the source tree) notifies the listeners of the derived value
exactly when the connect callback invokes `disp`, so over a stream of map
changes the notifications received by a `projectValue` listener are the
non-`none` results of the handler. -/
def projectValueNotifications {K V W : Type} [DecidableEq K] (key : K) (fn : V → W)
    (eq : Option W → Option W → Bool) (changes : List (MapChange K V)) :
    List (Option W × Option W) :=
  changes.filterMap (projectValueHandler key fn eq)

end RMap

/-! ## Helper lemmas -/

namespace Rect

theorem containsRect_refl (a : Rect) : containsRect a a := by
  unfold containsRect
  omega

theorem containsRect_trans {a b c : Rect} (hab : containsRect a b)
    (hbc : containsRect b c) : containsRect a c := by
  unfold containsRect at *
  omega

theorem zero_isEmpty : (zero).isEmpty := by
  unfold isEmpty zero
  simp

theorem proper_not_isEmpty {a : Rect} (h : a.proper) : ¬ a.isEmpty := by
  unfold proper at h
  unfold isEmpty
  omega

/-- Union with the zero rectangle on the right leaves a well-formed rectangle
unchanged. -/
theorem union_zero {a : Rect} (ha : a = zero ∨ a.proper) : union a zero = a := by
  rcases ha with rfl | ha
  · simp [union, zero_isEmpty]
  · simp [union, proper_not_isEmpty ha, zero_isEmpty]

/-- Containment of a well-formed rectangle in a well-formed rectangle makes
the union collapse to the container. -/
theorem union_eq_of_contains {a b : Rect} (ha : a = zero ∨ a.proper)
    (hb : b = zero ∨ b.proper) (h : containsRect a b) : union a b = a := by
  rcases hb with rfl | hb
  · exact union_zero ha
  · rcases ha with rfl | ha
    · exfalso
      unfold containsRect zero at h
      unfold proper at hb
      simp at h
      omega
    · have hae := proper_not_isEmpty ha
      have hbe := proper_not_isEmpty hb
      unfold containsRect at h
      simp only [union, if_neg hae, if_neg hbe]
      cases a
      cases b
      simp_all [Rect.mk.injEq]

/-- Bounding union preserves well-formedness. -/
theorem union_wf {a b : Rect} (ha : a = zero ∨ a.proper)
    (hb : b = zero ∨ b.proper) : union a b = zero ∨ (union a b).proper := by
  rcases ha with rfl | ha
  · simpa [union, zero_isEmpty] using hb
  · rcases hb with rfl | hb
    · rw [union_zero (Or.inr ha)]
      exact Or.inr ha
    · right
      have hae := proper_not_isEmpty ha
      have hbe := proper_not_isEmpty hb
      simp only [union, if_neg hae, if_neg hbe]
      unfold proper at ha hb ⊢
      cases a
      cases b
      simp_all

/-- A rectangle containing a proper rectangle is itself proper. -/
theorem proper_of_contains {a b : Rect} (h : containsRect a b) (hb : b.proper) :
    a.proper := by
  unfold containsRect at h
  unfold proper at *
  omega

/-- The bounding union contains its right argument when that argument is
proper. -/
theorem containsRect_union_right {a b : Rect} (hb : b.proper) :
    containsRect (union a b) b := by
  by_cases hae : a.isEmpty
  · simp only [union, if_pos hae]
    exact containsRect_refl b
  · have hbe := proper_not_isEmpty hb
    simp only [union, if_neg hae, if_neg hbe]
    unfold containsRect
    simp only []
    omega

/-- Dirtying the just-assigned bounds `b` after having already accumulated
`union acc (union old b)` cannot grow the accumulated region further. -/
theorem union_union_self_right {acc old b : Rect}
    (hacc : acc = zero ∨ acc.proper) (hold : old = zero ∨ old.proper)
    (hb : b = zero ∨ b.proper)
    (hnc : ¬ containsRect (union acc (union old b)) b) :
    union (union acc (union old b)) b = union acc (union old b) := by
  rcases hb with rfl | hb
  · exact union_zero (union_wf hacc (union_wf hold (Or.inl rfl)))
  · exact absurd
      (containsRect_trans
        (containsRect_union_right
          (proper_of_contains (containsRect_union_right hb) hb))
        (containsRect_union_right hb))
      hnc

end Rect

namespace Element

theorem dirty_preserves_layoutFields (st : List ElemState) (r : Rect) :
    (dirty st r).map layoutFields = st.map layoutFields := by
  induction st with
  | nil => rfl
  | cons e ps ih =>
    by_cases hc : Rect.containsRect e.dirtyRegion r
    · simp [dirty, hc]
    · simp [dirty, hc, layoutFields, ih]

theorem dirty_length (st : List ElemState) (r : Rect) :
    (dirty st r).length = st.length := by
  have h := congrArg List.length (dirty_preserves_layoutFields st r)
  simpa using h

/-- A single accumulation step of `dirty` as seen by the head element. -/
theorem dirty_head (e : ElemState) (ps : List ElemState) (r : Rect) :
    dirty (e :: ps) r =
      (if Rect.containsRect e.dirtyRegion r then e
       else { e with dirtyRegion := Rect.union e.dirtyRegion r }) ::
      (if Rect.containsRect e.dirtyRegion r then ps else dirty ps r) := by
  by_cases hc : Rect.containsRect e.dirtyRegion r <;> simp [dirty, hc]

/-- Folding a sequence of `dirty` calls accumulates exactly the bounding
union on the head element, provided every region is the zero rectangle or a
proper rectangle. -/
theorem dirty_fold_acc (rs : List Rect) : ∀ (e : ElemState) (ps : List ElemState),
    (e.dirtyRegion = Rect.zero ∨ e.dirtyRegion.proper) →
    (∀ r ∈ rs, r = Rect.zero ∨ r.proper) →
    accOf (rs.foldl dirty (e :: ps)) = rs.foldl Rect.union e.dirtyRegion := by
  induction rs with
  | nil => intro e ps _ _; rfl
  | cons r rs ih =>
    intro e ps hinv hrs
    have hr : r = Rect.zero ∨ r.proper := hrs r (by simp)
    have hrs' : ∀ x ∈ rs, x = Rect.zero ∨ x.proper := fun x hx => hrs x (by simp [hx])
    by_cases hc : Rect.containsRect e.dirtyRegion r
    · have hu : Rect.union e.dirtyRegion r = e.dirtyRegion :=
        Rect.union_eq_of_contains hinv hr hc
      simp only [List.foldl_cons, dirty, if_pos hc]
      rw [ih e ps hinv hrs', hu]
    · have hwf := Rect.union_wf hinv hr
      simp only [List.foldl_cons, dirty, if_neg hc]
      exact ih _ (dirty ps r) hwf hrs'

/-- The head of a `dirty` walk only has its dirty region touched. -/
theorem dirty_head_fields (h : ElemState) (t : List ElemState) (r : Rect)
    (d : ElemState) :
    ((dirty (h :: t) r).headD d).valid = h.valid
    ∧ ((dirty (h :: t) r).headD d).psizeW = h.psizeW
    ∧ ((dirty (h :: t) r).headD d).psizeH = h.psizeH
    ∧ ((dirty (h :: t) r).headD d).bounds = h.bounds
    ∧ ((dirty (h :: t) r).headD d).visible = h.visible := by
  by_cases hc : Rect.containsRect h.dirtyRegion r <;> simp [dirty, hc]

theorem dirty_get?_valid (r : Rect) : ∀ (st : List ElemState) (i : Nat),
    ((dirty st r).get? i).map ElemState.valid = (st.get? i).map ElemState.valid := by
  intro st
  induction st with
  | nil => intro i; rfl
  | cons e ps ih =>
    intro i
    by_cases hc : Rect.containsRect e.dirtyRegion r
    · simp [dirty, hc]
    · cases i with
      | zero => simp [dirty, hc]
      | succ j => simpa [dirty, hc] using ih j

/-- The parent-notification flag of `invalidate` is the validity of the
element it is invoked on. -/
theorem invalidate_snd (e : ElemState) (ps : List ElemState) (flag : Bool) :
    (invalidate (e :: ps) flag).2 = e.valid := by
  by_cases hv : e.valid <;> simp [invalidate, hv]

/-- Unfolding of `invalidate` on a valid element. -/
theorem invalidate_eq_true (e : ElemState) (ps : List ElemState) (flag : Bool)
    (hv : e.valid = true) :
    invalidate (e :: ps) flag =
      ((if flag then
          dirty ({ e with valid := false, psizeW := -1 } :: (invalidate ps false).1)
            (expandBounds e.bounds)
        else { e with valid := false, psizeW := -1 } :: (invalidate ps false).1),
       true) := by
  simp [invalidate, hv]

/-- Unfolding of `invalidate` on an already-invalid element. -/
theorem invalidate_eq_false (e : ElemState) (ps : List ElemState) (flag : Bool)
    (hv : e.valid = false) :
    invalidate (e :: ps) flag =
      ((if flag then dirty (e :: ps) (expandBounds e.bounds) else e :: ps),
       false) := by
  simp [invalidate, hv]

/-- Invalidation leaves a nonempty chain whose head is invalid. -/
theorem invalidate_cons (e : ElemState) (ps : List ElemState) (flag : Bool) :
    ∃ h t, (invalidate (e :: ps) flag).1 = h :: t ∧ h.valid = false := by
  rcases Bool.eq_false_or_eq_true e.valid with hv | hv
  · rw [invalidate_eq_true e ps flag hv]
    cases flag with
    | false =>
      exact ⟨_, _, rfl, rfl⟩
    | true =>
      show ∃ h t,
        dirty ({ e with valid := false, psizeW := -1 } :: (invalidate ps false).1)
          (expandBounds e.bounds) = h :: t ∧ h.valid = false
      rw [dirty_head]
      exact ⟨_, _, rfl, by split <;> rfl⟩
  · rw [invalidate_eq_false e ps flag hv]
    cases flag with
    | false => exact ⟨e, ps, rfl, hv⟩
    | true =>
      show ∃ h t, dirty (e :: ps) (expandBounds e.bounds) = h :: t ∧ h.valid = false
      rw [dirty_head]
      exact ⟨_, _, rfl, by split <;> exact hv⟩

/-- The head element after `invalidate(true)`: the valid branch mutates the
validity flag and the preferred-size sentinel, then `this.dirty()` may grow
the accumulated dirty region by the expanded bounds. -/
theorem invalidate_headD (h : ElemState) (t : List ElemState) (d : ElemState) :
    (invalidate (h :: t) true).1.headD d =
      (if h.valid then
        (if Rect.containsRect h.dirtyRegion (expandBounds h.bounds)
         then { h with valid := false, psizeW := -1 }
         else { h with valid := false, psizeW := -1,
                       dirtyRegion := Rect.union h.dirtyRegion (expandBounds h.bounds) })
       else
        (if Rect.containsRect h.dirtyRegion (expandBounds h.bounds) then h
         else { h with dirtyRegion := Rect.union h.dirtyRegion (expandBounds h.bounds) })) := by
  rcases Bool.eq_false_or_eq_true h.valid with hv | hv
  · rw [invalidate_eq_true h t true hv]
    show (dirty ({ h with valid := false, psizeW := -1 } :: (invalidate t false).1)
      (expandBounds h.bounds)).headD d = _
    rw [dirty_head]
    simp [hv]
  · rw [invalidate_eq_false h t true hv]
    show (dirty (h :: t) (expandBounds h.bounds)).headD d = _
    rw [dirty_head]
    simp [hv]

end Element

/-! ## Claim theorems for the element machinery -/

/-- C1: after any sequence of `dirty(r1) … dirty(rn)` since the last render
(which zeroes the accumulated region), the accumulated dirty rectangle of the
element equals the bounding union of all the `ri` starting from the empty
rectangle; and a `dirty(r)` whose region is already fully contained in the
accumulated rectangle returns immediately, changing nothing anywhere in the
chain and propagating nothing to the parent. -/
theorem dirty_union_monotonicity (e : ElemState) (ps : List ElemState)
    (rs : List Rect) (r : Rect)
    (hrs : ∀ x ∈ rs, x = Rect.zero ∨ x.proper) :
    Element.accOf (rs.foldl Element.dirty ({ e with dirtyRegion := Rect.zero } :: ps))
      = rs.foldl Rect.union Rect.zero
    ∧ (Rect.containsRect e.dirtyRegion r → Element.dirty (e :: ps) r = e :: ps) := by
  constructor
  · simpa using
      Element.dirty_fold_acc rs { e with dirtyRegion := Rect.zero } ps (Or.inl rfl) hrs
  · intro hc
    simp [Element.dirty, hc]

/-- Witness for C1 at a concrete element and region sequence. -/
theorem dirty_union_monotonicity_witness :
    (∀ x ∈ [(⟨0, 0, 2, 2⟩ : Rect), ⟨2, 2, 3, 3⟩], x = Rect.zero ∨ x.proper)
    ∧ (Element.accOf
        ([(⟨0, 0, 2, 2⟩ : Rect), ⟨2, 2, 3, 3⟩].foldl Element.dirty
          ({ (⟨⟨0, 0, 10, 10⟩, -1, -1, true, ⟨0, 0, 4, 4⟩, true⟩ : ElemState) with
              dirtyRegion := Rect.zero } :: []))
        = [(⟨0, 0, 2, 2⟩ : Rect), ⟨2, 2, 3, 3⟩].foldl Rect.union Rect.zero
      ∧ (Rect.containsRect
          (⟨⟨0, 0, 10, 10⟩, -1, -1, true, ⟨0, 0, 4, 4⟩, true⟩ : ElemState).dirtyRegion
          ⟨1, 1, 2, 2⟩ →
         Element.dirty ((⟨⟨0, 0, 10, 10⟩, -1, -1, true, ⟨0, 0, 4, 4⟩, true⟩ : ElemState) :: [])
           ⟨1, 1, 2, 2⟩
           = (⟨⟨0, 0, 10, 10⟩, -1, -1, true, ⟨0, 0, 4, 4⟩, true⟩ : ElemState) :: [])) :=
  ⟨by decide,
   dirty_union_monotonicity ⟨⟨0, 0, 10, 10⟩, -1, -1, true, ⟨0, 0, 4, 4⟩, true⟩ []
     [⟨0, 0, 2, 2⟩, ⟨2, 2, 3, 3⟩] ⟨1, 1, 2, 2⟩ (by decide)⟩

/-- C2: invalidating a currently valid element marks it invalid, resets the
cached preferred size to the invalid sentinel and sends the parent an
`invalidate` call (leaving the parent invalid); invalidating an
already-invalid element sends the parent no `invalidate` call and leaves
every layout field in the chain untouched; and immediately invalidating again
after an `invalidate` never notifies the parent, so the parent receives at
most one notification per invalid-valid-invalid cycle. -/
theorem invalidate_idempotence (e p : ElemState) (ps : List ElemState) :
    (e.valid = true →
      (Element.invalidate (e :: p :: ps) true).2 = true
      ∧ ((Element.invalidate (e :: p :: ps) true).1.headD e).valid = false
      ∧ ((Element.invalidate (e :: p :: ps) true).1.headD e).psizeW = -1
      ∧ ((Element.invalidate (e :: p :: ps) true).1.get? 1).map ElemState.valid
          = some false)
    ∧ (e.valid = false →
      (Element.invalidate (e :: p :: ps) true).2 = false
      ∧ (Element.invalidate (e :: p :: ps) true).1.map Element.layoutFields
          = (e :: p :: ps).map Element.layoutFields)
    ∧ (Element.invalidate ((Element.invalidate (e :: p :: ps) true).1) true).2 = false := by
  refine ⟨?_, ?_, ?_⟩
  · intro hv
    rw [Element.invalidate_eq_true e (p :: ps) true hv]
    refine ⟨rfl, ?_, ?_, ?_⟩
    · show ((Element.dirty
        ({ e with valid := false, psizeW := -1 } :: (Element.invalidate (p :: ps) false).1)
        (Element.expandBounds e.bounds)).headD e).valid = false
      exact (Element.dirty_head_fields _ _ _ _).1
    · show ((Element.dirty
        ({ e with valid := false, psizeW := -1 } :: (Element.invalidate (p :: ps) false).1)
        (Element.expandBounds e.bounds)).headD e).psizeW = -1
      exact (Element.dirty_head_fields _ _ _ _).2.1
    · show ((Element.dirty
        ({ e with valid := false, psizeW := -1 } :: (Element.invalidate (p :: ps) false).1)
        (Element.expandBounds e.bounds)).get? 1).map ElemState.valid = some false
      rw [Element.dirty_get?_valid]
      obtain ⟨h, t, heq, hval⟩ := Element.invalidate_cons p ps false
      rw [heq]
      simp [hval]
  · intro hv
    rw [Element.invalidate_eq_false e (p :: ps) true hv]
    exact ⟨rfl, Element.dirty_preserves_layoutFields _ _⟩
  · obtain ⟨h, t, heq, hval⟩ := Element.invalidate_cons e (p :: ps) true
    rw [heq, Element.invalidate_snd, hval]

/-- Witness for C2 at a concrete two-element chain. -/
theorem invalidate_idempotence_witness :
    ((⟨⟨0, 0, 4, 4⟩, 4, 4, true, ⟨0, 0, 0, 0⟩, true⟩ : ElemState).valid = true
      → (Element.invalidate
          ((⟨⟨0, 0, 4, 4⟩, 4, 4, true, ⟨0, 0, 0, 0⟩, true⟩ : ElemState)
            :: (⟨⟨0, 0, 9, 9⟩, 9, 9, true, ⟨0, 0, 0, 0⟩, true⟩ : ElemState) :: []) true).2 = true) :=
  fun hv =>
    ((invalidate_idempotence ⟨⟨0, 0, 4, 4⟩, 4, 4, true, ⟨0, 0, 0, 0⟩, true⟩
        ⟨⟨0, 0, 9, 9⟩, 9, 9, true, ⟨0, 0, 0, 0⟩, true⟩ []).1 hv).1

/-- C5: `setBounds` with the current bounds is a complete no-op; with
different bounds it adds the union of the old and new bounds to the dirty
region, replaces the bounds and invalidates the element (resetting the
preferred-size cache exactly when the element was valid). -/
theorem setBounds_semantics (e : ElemState) (ps : List ElemState) (b : Rect)
    (hacc : e.dirtyRegion = Rect.zero ∨ e.dirtyRegion.proper)
    (hold : e.bounds = Rect.zero ∨ e.bounds.proper)
    (hb : b = Rect.zero ∨ b.proper) :
    (e.bounds = b → Element.setBounds (e :: ps) b = e :: ps)
    ∧ (e.bounds ≠ b →
        (Element.setBounds (e :: ps) b).headD e =
          { e with bounds := b, valid := false,
                   psizeW := if e.valid then -1 else e.psizeW,
                   dirtyRegion := Rect.union e.dirtyRegion (Rect.union e.bounds b) }) := by
  obtain ⟨bb, pw, ph, vl, dr, vis⟩ := e
  constructor
  · intro h
    have h' : bb = b := h
    subst h'
    simp [Element.setBounds]
  · intro hne
    have hne' : ¬ bb = b := hne
    have hund : Element.setBounds ((⟨bb, pw, ph, vl, dr, vis⟩ : ElemState) :: ps) b
        = (Element.invalidate
            (Element.dirty ((⟨b, pw, ph, vl, dr, vis⟩ : ElemState) :: ps)
              (Element.expandBounds (Rect.union bb b))) true).1 := by
      simp [Element.setBounds, hne']
    have hd : Element.dirty ((⟨b, pw, ph, vl, dr, vis⟩ : ElemState) :: ps)
          (Element.expandBounds (Rect.union bb b))
        = (⟨b, pw, ph, vl, Rect.union dr (Rect.union bb b), vis⟩ : ElemState) ::
          (if Rect.containsRect dr (Rect.union bb b) then ps
           else Element.dirty ps (Rect.union bb b)) := by
      simp only [Element.expandBounds]
      rw [Element.dirty_head]
      by_cases hc1 : Rect.containsRect dr (Rect.union bb b)
      · have hA : Rect.union dr (Rect.union bb b) = dr :=
          Rect.union_eq_of_contains hacc (Rect.union_wf hold hb) hc1
        simp [hc1, hA]
      · simp [hc1]
    rw [hund, hd, Element.invalidate_headD]
    rcases Bool.eq_false_or_eq_true vl with hv | hv
    · subst hv
      by_cases hc2 : Rect.containsRect (Rect.union dr (Rect.union bb b)) b
      · simp [Element.expandBounds, hc2]
      · have h2 := Rect.union_union_self_right hacc hold hb hc2
        simp [Element.expandBounds, hc2, h2]
    · subst hv
      by_cases hc2 : Rect.containsRect (Rect.union dr (Rect.union bb b)) b
      · simp [Element.expandBounds, hc2]
      · have h2 := Rect.union_union_self_right hacc hold hb hc2
        simp [Element.expandBounds, hc2, h2]

/-- Witness for C5 at a concrete element, both the unchanged-bounds and the
changed-bounds cases. -/
theorem setBounds_semantics_witness :
    ((⟨⟨0, 0, 2, 2⟩, 5, 5, true, ⟨0, 0, 0, 0⟩, true⟩ : ElemState).dirtyRegion = Rect.zero
      ∨ (⟨⟨0, 0, 2, 2⟩, 5, 5, true, ⟨0, 0, 0, 0⟩, true⟩ : ElemState).dirtyRegion.proper)
    ∧ ((⟨⟨0, 0, 2, 2⟩, 5, 5, true, ⟨0, 0, 0, 0⟩, true⟩ : ElemState).bounds = Rect.zero
      ∨ (⟨⟨0, 0, 2, 2⟩, 5, 5, true, ⟨0, 0, 0, 0⟩, true⟩ : ElemState).bounds.proper)
    ∧ ((⟨1, 1, 3, 3⟩ : Rect) = Rect.zero ∨ (⟨1, 1, 3, 3⟩ : Rect).proper)
    ∧ ((⟨⟨0, 0, 2, 2⟩, 5, 5, true, ⟨0, 0, 0, 0⟩, true⟩ : ElemState).bounds ≠ ⟨1, 1, 3, 3⟩ →
        (Element.setBounds ((⟨⟨0, 0, 2, 2⟩, 5, 5, true, ⟨0, 0, 0, 0⟩, true⟩ : ElemState) :: [])
            ⟨1, 1, 3, 3⟩).headD ⟨⟨0, 0, 2, 2⟩, 5, 5, true, ⟨0, 0, 0, 0⟩, true⟩ =
          { (⟨⟨0, 0, 2, 2⟩, 5, 5, true, ⟨0, 0, 0, 0⟩, true⟩ : ElemState) with
              bounds := ⟨1, 1, 3, 3⟩, valid := false,
              psizeW := if (⟨⟨0, 0, 2, 2⟩, 5, 5, true, ⟨0, 0, 0, 0⟩, true⟩ : ElemState).valid
                        then -1
                        else (⟨⟨0, 0, 2, 2⟩, 5, 5, true, ⟨0, 0, 0, 0⟩, true⟩ : ElemState).psizeW,
              dirtyRegion := Rect.union
                (⟨⟨0, 0, 2, 2⟩, 5, 5, true, ⟨0, 0, 0, 0⟩, true⟩ : ElemState).dirtyRegion
                (Rect.union
                  (⟨⟨0, 0, 2, 2⟩, 5, 5, true, ⟨0, 0, 0, 0⟩, true⟩ : ElemState).bounds
                  ⟨1, 1, 3, 3⟩) }) :=
  ⟨Or.inl rfl, by decide, by decide,
   (setBounds_semantics ⟨⟨0, 0, 2, 2⟩, 5, 5, true, ⟨0, 0, 0, 0⟩, true⟩ [] ⟨1, 1, 3, 3⟩
      (Or.inl rfl) (by decide) (by decide)).2⟩

/-- C6: rendering with a region that does not intersect the expanded
bounds of the element changes nothing, in particular the accumulated dirty
rectangle; rendering with an intersecting region performs painting exactly
when the element is visible and clears the accumulated dirty rectangle. -/
theorem render_region_gate (e : ElemState) (region : Rect) :
    (¬ Rect.intersects (Element.expandBounds e.bounds) region →
      Element.render e region = (e, false))
    ∧ (Rect.intersects (Element.expandBounds e.bounds) region →
      Element.render e region = ({ e with dirtyRegion := Rect.zero }, e.visible)) := by
  constructor
  · intro h
    simp [Element.render, h]
  · intro h
    simp [Element.render, h]

/-- Witness for C6 at a concrete element, one disjoint and one intersecting
region. -/
theorem render_region_gate_witness :
    (¬ Rect.intersects
        (Element.expandBounds (⟨⟨0, 0, 4, 4⟩, 4, 4, true, ⟨1, 1, 2, 2⟩, true⟩ : ElemState).bounds)
        ⟨9, 9, 2, 2⟩)
    ∧ Element.render (⟨⟨0, 0, 4, 4⟩, 4, 4, true, ⟨1, 1, 2, 2⟩, true⟩ : ElemState) ⟨9, 9, 2, 2⟩
        = (⟨⟨0, 0, 4, 4⟩, 4, 4, true, ⟨1, 1, 2, 2⟩, true⟩, false) :=
  ⟨by decide,
   (render_region_gate ⟨⟨0, 0, 4, 4⟩, 4, 4, true, ⟨1, 1, 2, 2⟩, true⟩ ⟨9, 9, 2, 2⟩).1 (by decide)⟩

/-- C8: after invalidating a valid element, the next `preferredSize` read
invokes `computePreferredSize` exactly once; a second read before the next
invalidation returns the cached value without recomputing, whatever the
hints. -/
theorem preferredSize_memoized (e : ElemState) (compute : Int → Int → Int × Int)
    (hx hy hx2 hy2 : Int) (hv : e.valid = true) (hc : 0 ≤ (compute hx hy).1) :
    (Element.preferredSize compute ((Element.invalidate [e] true).1.headD e) hx hy).2.2 = true
    ∧ (Element.preferredSize compute
        (Element.preferredSize compute ((Element.invalidate [e] true).1.headD e) hx hy).2.1
        hx2 hy2).2.2 = false
    ∧ (Element.preferredSize compute
        (Element.preferredSize compute ((Element.invalidate [e] true).1.headD e) hx hy).2.1
        hx2 hy2).1
      = (Element.preferredSize compute ((Element.invalidate [e] true).1.headD e) hx hy).1 := by
  have hsent : ((Element.invalidate [e] true).1.headD e).psizeW = -1 := by
    rw [Element.invalidate_eq_true e [] true hv]
    show ((Element.dirty ({ e with valid := false, psizeW := -1 }
      :: (Element.invalidate [] false).1) (Element.expandBounds e.bounds)).headD e).psizeW = -1
    exact (Element.dirty_head_fields _ _ _ _).2.1
  rcases hE : (Element.invalidate [e] true).1.headD e with ⟨bb, pw, ph, vl, dr, vis⟩
  rw [hE] at hsent
  have hpw : pw = -1 := hsent
  subst hpw
  have hneg : (-1 : Int) < 0 := by omega
  have hnn : ¬ (compute hx hy).1 < 0 := not_lt.mpr hc
  simp [Element.preferredSize, hneg, hnn]

/-- Witness for C8 at a concrete element and a counting-style compute stub. -/
theorem preferredSize_memoized_witness :
    ((⟨⟨0, 0, 4, 4⟩, 10, 10, true, ⟨0, 0, 0, 0⟩, true⟩ : ElemState).valid = true)
    ∧ (0 ≤ ((fun _ _ => ((5 : Int), (7 : Int))) (100 : Int) (100 : Int)).1)
    ∧ (Element.preferredSize (fun _ _ => ((5 : Int), (7 : Int)))
        ((Element.invalidate [(⟨⟨0, 0, 4, 4⟩, 10, 10, true, ⟨0, 0, 0, 0⟩, true⟩ : ElemState)]
          true).1.headD ⟨⟨0, 0, 4, 4⟩, 10, 10, true, ⟨0, 0, 0, 0⟩, true⟩) 100 100).2.2 = true :=
  ⟨rfl, by decide,
   (preferredSize_memoized ⟨⟨0, 0, 4, 4⟩, 10, 10, true, ⟨0, 0, 0, 0⟩, true⟩
      (fun _ _ => ((5 : Int), (7 : Int))) 100 100 50 50 rfl (by decide)).1⟩

/-! ## Claim theorems for the reactive collections -/

/-- Clearing a list deletes from the tail until empty, one event per entry. -/
theorem list_clear_spec {E : Type} : ∀ (n : Nat) (s : LocalMutableList E),
    s.elems.length = n →
    (LocalMutableList.clear s).1.elems = []
    ∧ (LocalMutableList.clear s).2.length = s.elems.length := by
  intro n
  induction n with
  | zero =>
    intro s hs
    have hng : ¬ 0 < s.elems.length := by omega
    rw [LocalMutableList.clear, dif_neg hng]
    exact ⟨List.length_eq_zero.mp hs, by simp [hs]⟩
  | succ n ih =>
    intro s hs
    have hpos : 0 < s.elems.length := by omega
    have hlt : s.elems.length - 1 < s.elems.length := by omega
    have hg := List.getElem?_eq_getElem hlt
    have hdel : (LocalMutableList.delete s (s.elems.length - 1)).1.elems.length = n := by
      simp only [LocalMutableList.delete, hg, List.length_eraseIdx, if_pos hlt]
      omega
    have hev : (LocalMutableList.delete s (s.elems.length - 1)).2.length = 1 := by
      simp only [LocalMutableList.delete, hg]
      rfl
    obtain ⟨ih1, ih2⟩ := ih (LocalMutableList.delete s (s.elems.length - 1)).1 hdel
    rw [LocalMutableList.clear, dif_pos hpos]
    refine ⟨ih1, ?_⟩
    simp only [List.length_append, hev, ih2, hdel]
    omega

/-- Clearing a set deletes each entry of the iteration snapshot in turn. -/
theorem set_clearLoop_spec {E : Type} [DecidableEq E] :
    ∀ (l : List E), LocalMutableSet.clearLoop (⟨l⟩ : LocalMutableSet E) l
      = (⟨[]⟩, l.map SetChange.deleted) := by
  intro l
  induction l with
  | nil => rfl
  | cons e rest ih =>
    have hdel : LocalMutableSet.delete (⟨e :: rest⟩ : LocalMutableSet E) e
        = (⟨rest⟩, [SetChange.deleted e], true) := by
      simp [LocalMutableSet.delete, List.erase_cons_head]
    simp [LocalMutableSet.clearLoop, hdel, ih]

/-- Clearing a map deletes each key of the iteration snapshot in turn. -/
theorem map_clearLoop_spec {K V : Type} [DecidableEq K] :
    ∀ (entries : List (K × V)),
      LocalMutableMap.clearLoop (⟨entries⟩ : LocalMutableMap K V) (entries.map Prod.fst)
        = (⟨[]⟩, entries.map (fun p => MapChange.deleted p.1 p.2)) := by
  intro entries
  induction entries with
  | nil => rfl
  | cons p rest ih =>
    obtain ⟨k, v⟩ := p
    have hget : LocalMutableMap.get (⟨(k, v) :: rest⟩ : LocalMutableMap K V) k = some v := by
      simp [LocalMutableMap.get, List.find?]
    have hdel : LocalMutableMap.delete (⟨(k, v) :: rest⟩ : LocalMutableMap K V) k
        = (⟨rest⟩, [MapChange.deleted k v], true) := by
      simp [LocalMutableMap.delete, hget, List.eraseP_cons_of_pos]
    simp [LocalMutableMap.clearLoop, hdel, ih]

/-- C3 counterexample: adding an element that is already a member of a set is
a mutation call that dispatches zero structured change events, not exactly
one. -/
theorem mutation_single_event_counterexample :
    ¬ ((LocalMutableSet.add ((LocalMutableSet.add (⟨[]⟩ : LocalMutableSet Nat) 0).1)
        0).2.length = 1) := by
  decide

/-- C3 (amended): every mutation call mutates the backing store and then,
before returning, dispatches at most one structured change event to every
registered listener — exactly one whenever the store actually changed (and
for `map.set` always, even when the stored value is unchanged); a list
`update` with an `eq`-equal element, a set `add` of an existing member, and a
set or map `delete` of a missing entry dispatch none; `clear` on a collection
holding n entries dispatches exactly n deleted events, one per removed entry,
with no batch event. -/
theorem mutation_event_dispatch :
    (∀ (E : Type) (s : LocalMutableList E) (el : E) (i : Nat),
        (LocalMutableList.insert s el i).2 = [ListChange.added i el])
    ∧ (∀ (E : Type) (s : LocalMutableList E) (i : Nat) (prev : E),
        s.elems[i]? = some prev →
        (LocalMutableList.delete s i).2 = [ListChange.deleted i prev])
    ∧ (∀ (E : Type) (eq : E → E → Bool) (s : LocalMutableList E) (i : Nat) (el prev : E),
        s.elems[i]? = some prev →
        (LocalMutableList.update eq s i el).2
          = if eq el prev then [] else [ListChange.updated i el prev])
    ∧ (∀ (E : Type) [DecidableEq E] (s : LocalMutableSet E) (el : E),
        (LocalMutableSet.add s el).2 = if el ∈ s.elems then [] else [SetChange.added el])
    ∧ (∀ (E : Type) [DecidableEq E] (s : LocalMutableSet E) (el : E),
        (LocalMutableSet.delete s el).2.1
          = if el ∈ s.elems then [SetChange.deleted el] else [])
    ∧ (∀ (K V : Type) [DecidableEq K] (s : LocalMutableMap K V) (k : K) (v : V),
        (LocalMutableMap.set s k v).2 = [MapChange.set k v (s.get k)])
    ∧ (∀ (K V : Type) [DecidableEq K] (s : LocalMutableMap K V) (k : K),
        (LocalMutableMap.delete s k).2.1
          = match s.get k with
            | some prev => [MapChange.deleted k prev]
            | none => [])
    ∧ (∀ (E : Type) (s : LocalMutableList E),
        (LocalMutableList.clear s).1.elems = []
        ∧ (LocalMutableList.clear s).2.length = s.elems.length)
    ∧ (∀ (E : Type) [DecidableEq E] (s : LocalMutableSet E),
        (LocalMutableSet.clear s).1.elems = []
        ∧ (LocalMutableSet.clear s).2 = s.elems.map SetChange.deleted)
    ∧ (∀ (K V : Type) [DecidableEq K] (s : LocalMutableMap K V),
        (LocalMutableMap.clear s).1.entries = []
        ∧ (LocalMutableMap.clear s).2
          = s.entries.map (fun p => MapChange.deleted p.1 p.2)) := by
  refine ⟨?_, ?_, ?_, ?_, ?_, ?_, ?_, ?_, ?_, ?_⟩
  · intro E s el i
    rfl
  · intro E s i prev hp
    simp [LocalMutableList.delete, hp]
  · intro E eq s i el prev hp
    by_cases h : eq el prev <;> simp [LocalMutableList.update, hp, h]
  · intro E _ s el
    by_cases h : el ∈ s.elems <;> simp [LocalMutableSet.add, h]
  · intro E _ s el
    by_cases h : el ∈ s.elems <;> simp [LocalMutableSet.delete, h]
  · intro K V _ s k v
    rfl
  · intro K V _ s k
    rcases hg : s.get k with _ | prev <;> simp [LocalMutableMap.delete, hg]
  · intro E s
    exact list_clear_spec s.elems.length s rfl
  · intro E _ s
    obtain ⟨l⟩ := s
    rw [LocalMutableSet.clear, set_clearLoop_spec l]
    exact ⟨rfl, rfl⟩
  · intro K V _ s
    obtain ⟨entries⟩ := s
    rw [LocalMutableMap.clear]
    rw [show (⟨entries⟩ : LocalMutableMap K V).entries = entries from rfl,
        map_clearLoop_spec entries]
    exact ⟨rfl, rfl⟩

/-- Witness for the amended C3 at concrete collections: an in-bounds list
delete dispatches exactly its one deleted event. -/
theorem mutation_event_dispatch_witness :
    (([5] : List Nat)[0]? = some 5)
    ∧ (LocalMutableList.delete (⟨[5]⟩ : LocalMutableList Nat) 0).2
        = [ListChange.deleted 0 5] :=
  ⟨rfl, mutation_event_dispatch.2.1 Nat ⟨[5]⟩ 0 5 rfl⟩

/-- C4: a `projectValue` (and hence `getValue`) listener is notified only
when the projected value at the observed key changes per the supplied
equality: a change on a different key dispatches nothing to it, and a `set`
on the observed key whose old and new projections are `eq`-equal dispatches
nothing. -/
theorem projectValue_key_elision {K V W : Type} [DecidableEq K]
    (key : K) (fn : V → W) (eq : Option W → Option W → Bool) (c : MapChange K V) :
    (MapChange.key c ≠ key → RMap.projectValueHandler key fn eq c = none)
    ∧ (∀ v prev, c = MapChange.set key v prev →
        eq (prev.map fn) (some (fn v)) = true →
        RMap.projectValueHandler key fn eq c = none)
    ∧ (∀ (eqv : Option V → Option V → Bool),
        RMap.getValueHandler key eqv c = RMap.projectValueHandler key (fun v => v) eqv c)
    ∧ (∀ (changes : List (MapChange K V)), (∀ x ∈ changes, MapChange.key x ≠ key) →
        RMap.projectValueNotifications key fn eq changes = []) := by
  have hnone : ∀ (x : MapChange K V), MapChange.key x ≠ key →
      RMap.projectValueHandler key fn eq x = none := by
    intro x hk
    cases x with
    | set k v prev =>
      have hne : ¬ k = key := by simpa [MapChange.key] using hk
      simp [RMap.projectValueHandler, hne]
    | deleted k prev =>
      have hne : ¬ k = key := by simpa [MapChange.key] using hk
      simp [RMap.projectValueHandler, hne]
  refine ⟨hnone c, ?_, ?_, ?_⟩
  · intro v prev hc heq
    subst hc
    simp [RMap.projectValueHandler, heq]
  · intro eqv
    rfl
  · intro changes hall
    rw [RMap.projectValueNotifications]
    exact List.filterMap_eq_nil_iff.mpr fun x hx => hnone x (hall x hx)

/-- Witness for C4 at a concrete map change on a different key. -/
theorem projectValue_key_elision_witness :
    (MapChange.key (MapChange.set 1 5 (none : Option Nat)) ≠ 2)
    ∧ RMap.projectValueHandler 2 (fun v : Nat => v) (fun a b => a == b)
        (MapChange.set 1 5 (none : Option Nat)) = none :=
  ⟨by decide,
   (projectValue_key_elision 2 (fun v : Nat => v) (fun a b => a == b)
      (MapChange.set 1 5 none)).1 (by decide)⟩

/-- C7: on a fresh list, inserting "a" at 0 and then "b" at 0 leaves the list
["b", "a"] and dispatches exactly two added events, both with index 0, with
elements "a" then "b"; in general `insert(e, i)` places `e` at position `i`
of the iteration order. -/
theorem insert_position_scenario :
    (LocalMutableList.insert (⟨[]⟩ : LocalMutableList String) "a" 0
      = (⟨["a"]⟩, [ListChange.added 0 "a"]))
    ∧ (LocalMutableList.insert (⟨["a"]⟩ : LocalMutableList String) "b" 0
      = (⟨["b", "a"]⟩, [ListChange.added 0 "b"]))
    ∧ (∀ (E : Type) (s : LocalMutableList E) (el : E) (i : Nat), i ≤ s.elems.length →
        (LocalMutableList.insert s el i).1.elems[i]? = some el) := by
  refine ⟨rfl, rfl, ?_⟩
  intro E s el i hi
  have hmin : min i s.elems.length = i := Nat.min_eq_left hi
  have hlen : (s.elems.take i).length = i := by simp [List.length_take, hi]
  simp only [LocalMutableList.insert, hmin]
  rw [List.getElem?_append_right hlen.le, hlen]
  simp

/-- Witness for C7: the general placement fact at a concrete list. -/
theorem insert_position_scenario_witness :
    ((1 : Nat) ≤ ([3, 4] : List Nat).length)
    ∧ (LocalMutableList.insert (⟨[3, 4]⟩ : LocalMutableList Nat) 9 1).1.elems[1]?
        = some 9 :=
  ⟨by decide, insert_position_scenario.2.2 Nat ⟨[3, 4]⟩ 9 1 (by decide)⟩

/-- C9: updating an in-bounds index with an element `eq`-equal to the current
one changes nothing and dispatches nothing; otherwise the element is replaced
and exactly one updated event fires, carrying the index, the new element and
the previous one. -/
theorem update_equality_elision {E : Type} (eq : E → E → Bool)
    (s : LocalMutableList E) (i : Nat) (el prev : E)
    (hp : s.elems[i]? = some prev) :
    (eq el prev = true → LocalMutableList.update eq s i el = (s, []))
    ∧ (eq el prev = false →
        LocalMutableList.update eq s i el
          = (⟨s.elems.set i el⟩, [ListChange.updated i el prev])) := by
  constructor <;> intro h <;> simp [LocalMutableList.update, hp, h]

/-- Witness for C9 at a concrete list, equal and unequal updates. -/
theorem update_equality_elision_witness :
    (([3, 4] : List Nat)[0]? = some 3)
    ∧ ((fun a b : Nat => a == b) 3 3 = true)
    ∧ LocalMutableList.update (fun a b : Nat => a == b) (⟨[3, 4]⟩ : LocalMutableList Nat) 0 3
        = (⟨[3, 4]⟩, []) :=
  ⟨rfl, by decide,
   (update_equality_elision (fun a b : Nat => a == b) ⟨[3, 4]⟩ 0 3 3 rfl).1 (by decide)⟩

/-- C10: `add` of an existing member changes nothing and dispatches nothing;
`delete` of a non-member dispatches nothing and returns false; `delete` of a
member removes it, dispatches exactly one deleted event and returns true. -/
theorem set_add_delete_idempotence {E : Type} [DecidableEq E]
    (s : LocalMutableSet E) (el : E) (hnd : s.elems.Nodup) :
    (el ∈ s.elems → LocalMutableSet.add s el = (s, []))
    ∧ (el ∉ s.elems → LocalMutableSet.delete s el = (s, [], false))
    ∧ (el ∈ s.elems →
        LocalMutableSet.delete s el = (⟨s.elems.erase el⟩, [SetChange.deleted el], true)
        ∧ el ∉ (LocalMutableSet.delete s el).1.elems) := by
  refine ⟨?_, ?_, ?_⟩
  · intro h
    simp [LocalMutableSet.add, h]
  · intro h
    simp [LocalMutableSet.delete, h]
  · intro h
    have hout : el ∉ s.elems.erase el :=
      fun hmem => ((List.Nodup.mem_erase_iff hnd).mp hmem).1 rfl
    refine ⟨by simp [LocalMutableSet.delete, h], ?_⟩
    simpa [LocalMutableSet.delete, h] using hout

/-- Witness for C10 at a concrete set. -/
theorem set_add_delete_idempotence_witness :
    (([3, 4] : List Nat).Nodup)
    ∧ ((3 : Nat) ∈ ([3, 4] : List Nat))
    ∧ LocalMutableSet.add (⟨[3, 4]⟩ : LocalMutableSet Nat) 3 = (⟨[3, 4]⟩, []) :=
  ⟨by decide, by decide,
   (set_add_delete_idempotence (⟨[3, 4]⟩ : LocalMutableSet Nat) 3 (by decide)).1 (by decide)⟩

end Spec2Proof
